import Mathlib

/-!
Shallow embedding of `scripts/publish-packages.py` (WorkflowForge package
publisher) and proofs about its pipeline.

The script is a sequential pipeline: restore → build → pack (one external
command per project) → verify (open each produced archive, warn when no
README entry) → optionally sign → optionally publish.  External commands and
the filesystem are modelled by an oracle `Env` giving each command's exit
code, the output directory's contents, and each archive's zip entry list
(`none` = the archive is not a valid zip).  The pipeline records an event
trace (commands run, archives opened), the artifact records list, and the
verification warnings; `sys.exit(1)` / an uncaught exception become the
`RunResult.fatal` outcome, normal completion `RunResult.done`.
-/

namespace PublishPackages

/-- Lexicographic comparison of character lists by code point, the order
Python uses when sorting the archive filenames. -/
def charLe : List Char → List Char → Bool
  | [], _ => true
  | _ :: _, [] => false
  | a :: as, b :: bs => if a.toNat = b.toNat then charLe as bs else decide (a.toNat < b.toNat)

/-- Filename order used by `sorted(...)` in the script. -/
def strLe (a b : String) : Prop := charLe a.data b.data = true

instance : DecidableRel strLe := fun a b => by unfold strLe; infer_instance

/-- Embedding of Python's `str.startswith`: prefix test on the characters. -/
def strStartsWith (s p : String) : Bool := p.data.isPrefixOf s.data

/-- Suffix test on the characters (used to translate the glob patterns). -/
def strEndsWith (s p : String) : Bool := p.data.reverse.isPrefixOf s.data.reverse

/-- Embedding of Python's `needle in hay` substring test. -/
def substrIn (needle hay : List Char) : Bool :=
  hay.tails.any (fun t => needle.isPrefixOf t)

/-- Split a character list on a separator character (Python `str.split`). -/
def splitOnChar (c : Char) : List Char → List (List Char)
  | [] => [[]]
  | x :: xs =>
    let r := splitOnChar c xs
    if x = c then [] :: r
    else
      match r with
      | [] => [[x]]
      | g :: gs => (x :: g) :: gs

/-- `Path(p).stem`: the final path component without its last extension. -/
def stem (p : String) : String :=
  let n := ((splitOnChar '/' p.data).reverse).headD []
  let parts := splitOnChar '.' n
  if parts.length ≤ 1 then String.mk n
  else String.mk ((parts.dropLast.intersperse ['.']).flatten)

/-- The fixed project list `PACKAGES` of the script. -/
def PACKAGES : List String :=
  [ "src/core/WorkflowForge/WorkflowForge.csproj",
    "src/core/WorkflowForge.Testing/WorkflowForge.Testing.csproj",
    "src/extensions/WorkflowForge.Extensions.DependencyInjection/WorkflowForge.Extensions.DependencyInjection.csproj",
    "src/extensions/WorkflowForge.Extensions.Logging.Serilog/WorkflowForge.Extensions.Logging.Serilog.csproj",
    "src/extensions/WorkflowForge.Extensions.Resilience/WorkflowForge.Extensions.Resilience.csproj",
    "src/extensions/WorkflowForge.Extensions.Resilience.Polly/WorkflowForge.Extensions.Resilience.Polly.csproj",
    "src/extensions/WorkflowForge.Extensions.Validation/WorkflowForge.Extensions.Validation.csproj",
    "src/extensions/WorkflowForge.Extensions.Audit/WorkflowForge.Extensions.Audit.csproj",
    "src/extensions/WorkflowForge.Extensions.Persistence/WorkflowForge.Extensions.Persistence.csproj",
    "src/extensions/WorkflowForge.Extensions.Persistence.Recovery/WorkflowForge.Extensions.Persistence.Recovery.csproj",
    "src/extensions/WorkflowForge.Extensions.Observability.Performance/WorkflowForge.Extensions.Observability.Performance.csproj",
    "src/extensions/WorkflowForge.Extensions.Observability.HealthChecks/WorkflowForge.Extensions.Observability.HealthChecks.csproj",
    "src/extensions/WorkflowForge.Extensions.Observability.OpenTelemetry/WorkflowForge.Extensions.Observability.OpenTelemetry.csproj" ]

/-- One row of the script's `results` list:
`{"name": name, "packed": ..., "signed": ..., "published": ...}`. -/
structure ArtifactRecord where
  name : String
  packed : Bool
  signed : Bool
  published : Bool
deriving Repr, DecidableEq

/-- The external commands the script launches via `run`. -/
inductive Cmd where
  | restore
  | build
  | pack (project : String)
  | sign (archive : String)
  | push (archive : String)
deriving Repr, DecidableEq

/-- Observable actions of a run: launching a command, opening an archive. -/
inductive Event where
  | run (c : Cmd)
  | openArchive (f : String)
deriving Repr, DecidableEq

/-- Mutable state of a run: the event trace, the `results` list, and the
verify-stage warnings (archives reported as lacking a README entry). -/
structure PState where
  trace : List Event
  records : List ArtifactRecord
  warnings : List String
deriving Repr, DecidableEq

/-- State at process start. -/
def initState : PState := ⟨[], [], []⟩

/-- The parsed command-line options. -/
structure Args where
  version : String
  apiKey : Option String
  publish : Bool
  sign : Bool
  certPath : Option String
  certPassword : Option String
deriving Repr, DecidableEq

/-- Oracle for the outside world: exit code of every external command, the
contents of the shared output directory, and the zip entry list of each
archive (`none` when the file is not a valid zip archive). -/
structure Env where
  exitCode : Cmd → Nat
  outputFiles : List String
  zipEntries : String → Option (List String)

/-- Python truthiness of an optional string option: `None` and `""` are
falsy (`if not args.cert_path: ...`). -/
def truthy : Option String → Bool
  | none => false
  | some s => !s.data.isEmpty

/-- The glob `*.nupkg` used by the verify stage (line 85). -/
def globNupkg (f : String) : Bool := strEndsWith f ".nupkg"

/-- The glob `*.*nupkg` used by the sign and publish stages (lines 97 and
116): the name has the form `a ++ "." ++ b ++ "nupkg"`. -/
def globAllNupkg (f : String) : Bool :=
  strEndsWith f "nupkg" && (f.data.take (f.data.length - 5)).contains '.'

/-- `sorted(output_dir.glob(...))`. -/
def sortFiles (fs : List String) : List String := List.insertionSort strLe fs

/-- Archives iterated by the verify stage, in iteration order. -/
def verifyFiles (env : Env) : List String :=
  sortFiles (env.outputFiles.filter globNupkg)

/-- Archives iterated by the sign and publish stages, in iteration order. -/
def wideFiles (env : Env) : List String :=
  sortFiles (env.outputFiles.filter globAllNupkg)

/-- Embedding of the script's `run` helper with its default `check=True`:
launch the command (recorded in the trace); on a non-zero exit code the
whole process stops (`sys.exit(1)`), modelled by `Except.error`. -/
def run (env : Env) (c : Cmd) (s : PState) : Except PState PState :=
  let s' : PState := { s with trace := s.trace ++ [Event.run c] }
  if env.exitCode c ≠ 0 then .error s' else .ok s'

/-- The record appended after a successful pack of `p` (line 81). -/
def mkRecord (p : String) : ArtifactRecord :=
  { name := stem p, packed := true, signed := false, published := false }

/-- Step 3 of the script: `dotnet pack` per project, appending one record
per successful invocation (lines 70–81). -/
def packLoop (env : Env) : List String → PState → Except PState PState
  | [], s => .ok s
  | p :: ps, s =>
    match run env (.pack p) s with
    | .error s' => .error s'
    | .ok s' => packLoop env ps { s' with records := s'.records ++ [mkRecord p] }

/-- `any("README" in n for n in names)` (line 88). -/
def hasReadme (entries : List String) : Bool :=
  entries.any (fun n => substrIn "README".data n.data)

/-- Step 4 of the script: open each archive; a corrupt archive raises an
uncaught exception (fatal); an archive without a README entry only produces
a warning line (lines 85–89). -/
def verifyLoop (env : Env) : List String → PState → Except PState PState
  | [], s => .ok s
  | f :: fs, s =>
    let s' : PState := { s with trace := s.trace ++ [Event.openArchive f] }
    match env.zipEntries f with
    | none => .error s'
    | some entries =>
      verifyLoop env fs
        (if hasReadme entries then s'
         else { s' with warnings := s'.warnings ++ [f] })

/-- The two record fields set by archive-name matching. -/
inductive MarkField where
  | signed
  | published
deriving Repr, DecidableEq

/-- Set the given boolean field of a record to `True`. -/
def setField : MarkField → ArtifactRecord → ArtifactRecord
  | .signed, r => { r with signed := true }
  | .published, r => { r with published := true }

/-- `nupkg.name.startswith(r["name"] + ".")` (lines 107 and 125). -/
def matchesRecord (archive name : String) : Bool :=
  strStartsWith archive (name ++ ".")

/-- The match-and-mark update of the sign and publish stages: every record
whose `name + "."` is a prefix of the archive filename gets the field set
(lines 106–108 and 124–126). -/
def matchAndMark (archive : String) (recs : List ArtifactRecord)
    (fld : MarkField) : List ArtifactRecord :=
  recs.map (fun r => if matchesRecord archive r.name then setField fld r else r)

/-- Step 5 of the script: sign each archive, then mark matching records
(lines 97–108). -/
def signLoop (env : Env) : List String → PState → Except PState PState
  | [], s => .ok s
  | f :: fs, s =>
    match run env (.sign f) s with
    | .error s' => .error s'
    | .ok s' => signLoop env fs { s' with records := matchAndMark f s'.records .signed }

/-- Step 6 of the script: push each archive, then mark matching records
(lines 116–126). -/
def publishLoop (env : Env) : List String → PState → Except PState PState
  | [], s => .ok s
  | f :: fs, s =>
    match run env (.push f) s with
    | .error s' => .error s'
    | .ok s' => publishLoop env fs { s' with records := matchAndMark f s'.records .published }

/-- The sign stage guard: when requested, a missing/empty `--cert-path` is a
fatal configuration error raised before any signing command (lines 92–96). -/
def signStage (env : Env) (args : Args) (s : PState) : Except PState PState :=
  if args.sign then
    if truthy args.certPath = false then .error s
    else signLoop env (wideFiles env) s
  else .ok s

/-- The publish stage guard: when requested, a missing/empty `--api-key` is
a fatal configuration error raised before any push command (lines 111–115);
without `--publish` the stage is skipped (dry run). -/
def publishStage (env : Env) (args : Args) (s : PState) : Except PState PState :=
  if args.publish then
    if truthy args.apiKey = false then .error s
    else publishLoop env (wideFiles env) s
  else .ok s

/-- Outcome of a run: `fatal` = the process stopped with a non-zero exit
status (`sys.exit(1)` or an uncaught exception), `done` = exit status 0. -/
inductive RunResult where
  | fatal (s : PState)
  | done (s : PState)
deriving Repr, DecidableEq

/-- The state carried by either outcome. -/
def RunResult.state : RunResult → PState
  | .fatal s => s
  | .done s => s

/-- The whole `main` pipeline of the script, parameterised by the project
list (the script passes `PACKAGES`): restore, build, pack each project,
verify each `*.nupkg`, then the optional sign and publish stages over each
`*.*nupkg`, finally the summary (a pure read, not modelled). -/
def main (env : Env) (args : Args) (packages : List String) : RunResult :=
  match run env .restore initState with
  | .error s => .fatal s
  | .ok s =>
  match run env .build s with
  | .error s => .fatal s
  | .ok s =>
  match packLoop env packages s with
  | .error s => .fatal s
  | .ok s =>
  match verifyLoop env (verifyFiles env) s with
  | .error s => .fatal s
  | .ok s =>
  match signStage env args s with
  | .error s => .fatal s
  | .ok s =>
  match publishStage env args s with
  | .error s => .fatal s
  | .ok s => .done s

/-! ### Derived notions used to state the properties -/

/-- The state reached by a stage, whether it succeeded or stopped the run. -/
def outState : Except PState PState → PState
  | .ok s => s
  | .error s => s

/-- Sequencing of two pipeline fragments: the second runs only when the
first did not stop the process. -/
def andThen (x : Except PState PState) (f : PState → Except PState PState) :
    Except PState PState :=
  match x with
  | .error s => .error s
  | .ok s => f s

/-- The pipeline as a sequenced chain of its six stages. -/
def mainE (env : Env) (args : Args) (packages : List String) : Except PState PState :=
  andThen (andThen (andThen (andThen (andThen
    (run env .restore initState)
    (run env .build))
    (packLoop env packages))
    (verifyLoop env (verifyFiles env)))
    (signStage env args))
    (publishStage env args)

/-- A stage outcome succeeded exactly when the event it recorded succeeded:
a launched command exited with code 0, an opened archive was a valid zip. -/
def eventOk (env : Env) : Event → Prop
  | .run c => env.exitCode c = 0
  | .openArchive f => env.zipEntries f ≠ none

/-- Spec §3 / implicit invariant: a record evolves only by keeping its name
and turning boolean flags from `false` to `true`. -/
def recordLE (r r' : ArtifactRecord) : Prop :=
  r.name = r'.name ∧ (r.packed = true → r'.packed = true) ∧
    (r.signed = true → r'.signed = true) ∧
    (r.published = true → r'.published = true)

/-! ### Basic lemmas about the sequencing view -/

theorem main_eq_mainE (env : Env) (args : Args) (ps : List String) :
    main env args ps = match mainE env args ps with
      | .error s => RunResult.fatal s
      | .ok s => RunResult.done s := by
  unfold main mainE
  cases h1 : run env .restore initState with
  | error s => simp [h1, andThen]
  | ok s =>
    simp only [h1, andThen]
    cases h2 : run env .build s with
    | error s => simp [h2, andThen]
    | ok s =>
      simp only [h2, andThen]
      cases h3 : packLoop env ps s with
      | error s => simp [h3, andThen]
      | ok s =>
        simp only [h3, andThen]
        cases h4 : verifyLoop env (verifyFiles env) s with
        | error s => simp [h4, andThen]
        | ok s =>
          simp only [h4, andThen]
          cases h5 : signStage env args s with
          | error s => simp [h5, andThen]
          | ok s =>
            simp only [h5, andThen]

theorem main_state_eq (env : Env) (args : Args) (ps : List String) :
    (main env args ps).state = outState (mainE env args ps) := by
  rw [main_eq_mainE]
  cases mainE env args ps with
  | error s => rfl
  | ok s => rfl

theorem main_done_iff (env : Env) (args : Args) (ps : List String) (s : PState) :
    main env args ps = .done s ↔ mainE env args ps = .ok s := by
  rw [main_eq_mainE]
  cases mainE env args ps with
  | error s' => simp
  | ok s' => simp

theorem main_fatal_iff (env : Env) (args : Args) (ps : List String) (s : PState) :
    main env args ps = .fatal s ↔ mainE env args ps = .error s := by
  rw [main_eq_mainE]
  cases mainE env args ps with
  | error s' => simp
  | ok s' => simp

theorem andThen_pres {P : PState → Prop} (x : Except PState PState)
    (f : PState → Except PState PState) (hx : P (outState x))
    (hf : ∀ s, P s → P (outState (f s))) : P (outState (andThen x f)) := by
  cases x with
  | error s => exact hx
  | ok s => exact hf s hx

theorem andThen_ok {x : Except PState PState} {f : PState → Except PState PState}
    {s : PState} (h : x = .ok s) : andThen x f = f s := by
  subst h; rfl

theorem andThen_err {x : Except PState PState} {f : PState → Except PState PState}
    {s : PState} (h : x = .error s) : andThen x f = .error s := by
  subst h; rfl

theorem run_ok {env : Env} {c : Cmd} (s : PState) (h : env.exitCode c = 0) :
    run env c s = .ok ⟨s.trace ++ [Event.run c], s.records, s.warnings⟩ := by
  simp [run, h]

theorem run_err {env : Env} {c : Cmd} (s : PState) (h : env.exitCode c ≠ 0) :
    run env c s = .error ⟨s.trace ++ [Event.run c], s.records, s.warnings⟩ := by
  simp [run, h]

theorem run_records_out (env : Env) (c : Cmd) (s : PState) :
    (outState (run env c s)).records = s.records := by
  by_cases h : env.exitCode c = 0
  · rw [run_ok s h]; rfl
  · rw [run_err s h]; rfl

theorem run_trace_out (env : Env) (c : Cmd) (s : PState) :
    (outState (run env c s)).trace = s.trace ++ [Event.run c] := by
  by_cases h : env.exitCode c = 0
  · rw [run_ok s h]; rfl
  · rw [run_err s h]; rfl

/-! ### Success- and failure-path characterizations of the loops -/

theorem packLoop_ok_char (env : Env) (ps : List String) (s : PState)
    (h : ∀ p ∈ ps, env.exitCode (.pack p) = 0) :
    packLoop env ps s =
      .ok ⟨s.trace ++ ps.map (fun p => Event.run (.pack p)),
           s.records ++ ps.map mkRecord, s.warnings⟩ := by
  induction ps generalizing s with
  | nil => simp [packLoop]
  | cons p ps ih =>
    have hp : env.exitCode (.pack p) = 0 := h p (List.mem_cons_self p ps)
    rw [packLoop, run_ok s hp]
    simp [ih _ (fun q hq => h q (List.mem_cons_of_mem p hq))]

theorem packLoop_err_char (env : Env) (qs : List String) (p : String)
    (rest : List String) (s : PState)
    (h : ∀ q ∈ qs, env.exitCode (.pack q) = 0)
    (hp : env.exitCode (.pack p) ≠ 0) :
    packLoop env (qs ++ p :: rest) s =
      .error ⟨s.trace ++ qs.map (fun q => Event.run (.pack q)) ++ [Event.run (.pack p)],
              s.records ++ qs.map mkRecord, s.warnings⟩ := by
  induction qs generalizing s with
  | nil => simp only [List.nil_append, packLoop, run_err s hp, List.map_nil,
      List.append_nil]
  | cons q qs ih =>
    have hq : env.exitCode (.pack q) = 0 := h q (List.mem_cons_self q qs)
    rw [List.cons_append, packLoop, run_ok s hq]
    simp [ih _ (fun q' hq' => h q' (List.mem_cons_of_mem q hq'))]

theorem packLoop_ok_records (env : Env) (ps : List String) (s s' : PState)
    (h : packLoop env ps s = .ok s') :
    s'.records = s.records ++ ps.map mkRecord := by
  induction ps generalizing s with
  | nil =>
    simp only [packLoop] at h
    cases h
    simp
  | cons p ps ih =>
    rw [packLoop] at h
    by_cases hp : env.exitCode (.pack p) = 0
    · rw [run_ok s hp] at h
      have := ih _ h
      simpa using this
    · rw [run_err s hp] at h
      cases h

theorem verifyLoop_ok_char (env : Env) (fs : List String) (s : PState)
    (h : ∀ f ∈ fs, env.zipEntries f ≠ none) :
    verifyLoop env fs s =
      .ok ⟨s.trace ++ fs.map Event.openArchive, s.records,
           s.warnings ++ fs.filter (fun f => !hasReadme ((env.zipEntries f).getD []))⟩ := by
  induction fs generalizing s with
  | nil => simp [verifyLoop]
  | cons f fs ih =>
    obtain ⟨entries, he⟩ := Option.ne_none_iff_exists'.mp (h f (List.mem_cons_self f fs))
    rw [verifyLoop, he]
    by_cases hr : hasReadme entries
    · simp only [hr, if_pos]
      rw [ih _ (fun g hg => h g (List.mem_cons_of_mem f hg))]
      simp [List.filter_cons, he, hr]
    · simp only [hr, if_neg, Bool.not_eq_true]
      rw [ih _ (fun g hg => h g (List.mem_cons_of_mem f hg))]
      simp [List.filter_cons, he, hr]

theorem signLoop_ok_char (env : Env) (fs : List String) (s : PState)
    (h : ∀ f ∈ fs, env.exitCode (.sign f) = 0) :
    signLoop env fs s =
      .ok ⟨s.trace ++ fs.map (fun f => Event.run (.sign f)),
           fs.foldl (fun rs f => matchAndMark f rs .signed) s.records, s.warnings⟩ := by
  induction fs generalizing s with
  | nil => simp [signLoop]
  | cons f fs ih =>
    have hf : env.exitCode (.sign f) = 0 := h f (List.mem_cons_self f fs)
    rw [signLoop, run_ok s hf]
    simp [ih _ (fun g hg => h g (List.mem_cons_of_mem f hg))]

theorem publishLoop_ok_char (env : Env) (fs : List String) (s : PState)
    (h : ∀ f ∈ fs, env.exitCode (.push f) = 0) :
    publishLoop env fs s =
      .ok ⟨s.trace ++ fs.map (fun f => Event.run (.push f)),
           fs.foldl (fun rs f => matchAndMark f rs .published) s.records, s.warnings⟩ := by
  induction fs generalizing s with
  | nil => simp [publishLoop]
  | cons f fs ih =>
    have hf : env.exitCode (.push f) = 0 := h f (List.mem_cons_self f fs)
    rw [publishLoop, run_ok s hf]
    simp [ih _ (fun g hg => h g (List.mem_cons_of_mem f hg))]

/-! ### Algebra of `matchAndMark` and record monotonicity -/

theorem setField_name (fld : MarkField) (r : ArtifactRecord) :
    (setField fld r).name = r.name := by
  cases fld <;> rfl

theorem setField_idem (fld : MarkField) (r : ArtifactRecord) :
    setField fld (setField fld r) = setField fld r := by
  cases fld <;> rfl

theorem setField_published (r : ArtifactRecord) :
    (setField .signed r).published = r.published := rfl

theorem recordLE_refl (r : ArtifactRecord) : recordLE r r :=
  ⟨rfl, fun h => h, fun h => h, fun h => h⟩

theorem recordLE_trans {a b c : ArtifactRecord} (h1 : recordLE a b)
    (h2 : recordLE b c) : recordLE a c :=
  ⟨h1.1.trans h2.1, fun h => h2.2.1 (h1.2.1 h),
   fun h => h2.2.2.1 (h1.2.2.1 h), fun h => h2.2.2.2 (h1.2.2.2 h)⟩

theorem recordLE_setField (fld : MarkField) (r : ArtifactRecord) :
    recordLE r (setField fld r) := by
  cases fld
  · exact ⟨rfl, fun h => h, fun _ => rfl, fun h => h⟩
  · exact ⟨rfl, fun h => h, fun h => h, fun _ => rfl⟩

theorem forall₂_recordLE_refl (l : List ArtifactRecord) :
    List.Forall₂ recordLE l l := by
  induction l with
  | nil => exact List.Forall₂.nil
  | cons r l ih => exact List.Forall₂.cons (recordLE_refl r) ih

theorem forall₂_recordLE_trans {a b c : List ArtifactRecord}
    (h1 : List.Forall₂ recordLE a b) (h2 : List.Forall₂ recordLE b c) :
    List.Forall₂ recordLE a c := by
  induction h1 generalizing c with
  | nil => cases h2; exact List.Forall₂.nil
  | cons hr _ ih =>
    cases h2 with
    | cons hr' ht' => exact List.Forall₂.cons (recordLE_trans hr hr') (ih ht')

theorem matchAndMark_mono (a : String) (recs : List ArtifactRecord)
    (fld : MarkField) : List.Forall₂ recordLE recs (matchAndMark a recs fld) := by
  induction recs with
  | nil => exact List.Forall₂.nil
  | cons r recs ih =>
    refine List.Forall₂.cons ?_ ih
    by_cases h : matchesRecord a r.name
    · simp only [matchAndMark, List.map_cons, h, if_pos]
      exact recordLE_setField fld r
    · simp only [matchAndMark, List.map_cons, h, if_neg, not_false_iff]
      exact recordLE_refl r

theorem matchAndMark_idem (a : String) (recs : List ArtifactRecord)
    (fld : MarkField) :
    matchAndMark a (matchAndMark a recs fld) fld = matchAndMark a recs fld := by
  induction recs with
  | nil => rfl
  | cons r recs ih =>
    simp only [matchAndMark, List.map_cons] at ih ⊢
    rw [ih]
    by_cases h : matchesRecord a r.name
    · simp [h, setField_name, setField_idem]
    · simp [h]

theorem matchAndMark_signed_published_false (a : String)
    (recs : List ArtifactRecord) (h : ∀ r ∈ recs, r.published = false) :
    ∀ r ∈ matchAndMark a recs .signed, r.published = false := by
  intro r hr
  rw [matchAndMark, List.mem_map] at hr
  obtain ⟨r', hr', rfl⟩ := hr
  by_cases hm : matchesRecord a r'.name
  · simp only [hm, if_pos, setField_published]
    exact h r' hr'
  · simp only [hm, if_neg, not_false_iff]
    exact h r' hr'

/-! ### Shape of the state reached by each loop, on success or failure -/

theorem packLoop_records_out (env : Env) (ps : List String) : ∀ s : PState,
    ∃ qs rest, ps = qs ++ rest ∧
      (outState (packLoop env ps s)).records = s.records ++ qs.map mkRecord := by
  induction ps with
  | nil => intro s; exact ⟨[], [], rfl, by simp [packLoop, outState]⟩
  | cons p ps ih =>
    intro s
    rw [packLoop]
    cases hrun : run env (.pack p) s with
    | error s' =>
      refine ⟨[], p :: ps, rfl, ?_⟩
      have h := run_records_out env (.pack p) s
      rw [hrun] at h
      simpa [outState] using h
    | ok s' =>
      have hs' : s'.records = s.records := by
        have h := run_records_out env (.pack p) s
        rw [hrun] at h
        simpa [outState] using h
      obtain ⟨qs, rest, hsplit, hrec⟩ := ih ⟨s'.trace, s'.records ++ [mkRecord p], s'.warnings⟩
      refine ⟨p :: qs, rest, by rw [hsplit, List.cons_append], ?_⟩
      simp only [outState] at hrec ⊢
      rw [hrec]
      simp [hs']

theorem packLoop_trace_out (env : Env) (ps : List String) : ∀ (s : PState)
    (e : Event), e ∈ (outState (packLoop env ps s)).trace →
      e ∈ s.trace ∨ ∃ p, e = Event.run (.pack p) := by
  induction ps with
  | nil => intro s e he; exact Or.inl (by simpa [packLoop, outState] using he)
  | cons p ps ih =>
    intro s e he
    rw [packLoop] at he
    cases hrun : run env (.pack p) s with
    | error s' =>
      rw [hrun] at he
      have h := run_trace_out env (.pack p) s
      rw [hrun] at h
      simp only [outState] at he h
      rw [h] at he
      rcases List.mem_append.mp he with h1 | h1
      · exact Or.inl h1
      · exact Or.inr ⟨p, by simpa using h1⟩
    | ok s' =>
      rw [hrun] at he
      have h := run_trace_out env (.pack p) s
      rw [hrun] at h
      simp only [outState] at he h
      rcases ih ⟨s'.trace, s'.records ++ [mkRecord p], s'.warnings⟩ e he with h1 | h1
      · simp only at h1
        rw [h] at h1
        rcases List.mem_append.mp h1 with h2 | h2
        · exact Or.inl h2
        · exact Or.inr ⟨p, by simpa using h2⟩
      · exact Or.inr h1

theorem verifyLoop_records_out (env : Env) (fs : List String) : ∀ s : PState,
    (outState (verifyLoop env fs s)).records = s.records := by
  induction fs with
  | nil => intro s; simp [verifyLoop, outState]
  | cons f fs ih =>
    intro s
    rw [verifyLoop]
    cases hz : env.zipEntries f with
    | none => simp [outState]
    | some entries =>
      cases hr : hasReadme entries with
      | true => simpa [hr] using ih ⟨s.trace ++ [Event.openArchive f], s.records, s.warnings⟩
      | false =>
        simpa [hr] using
          ih ⟨s.trace ++ [Event.openArchive f], s.records, s.warnings ++ [f]⟩

theorem verifyLoop_trace_out (env : Env) (fs : List String) : ∀ (s : PState)
    (e : Event), e ∈ (outState (verifyLoop env fs s)).trace →
      e ∈ s.trace ∨ ∃ f, e = Event.openArchive f := by
  induction fs with
  | nil => intro s e he; exact Or.inl (by simpa [verifyLoop, outState] using he)
  | cons f fs ih =>
    intro s e he
    rw [verifyLoop] at he
    cases hz : env.zipEntries f with
    | none =>
      simp only [hz, outState] at he
      rcases List.mem_append.mp he with h1 | h1
      · exact Or.inl h1
      · exact Or.inr ⟨f, by simpa using h1⟩
    | some entries =>
      rw [hz] at he
      cases hr : hasReadme entries with
      | true =>
        simp only [hz, hr, if_true] at he
        rcases ih ⟨s.trace ++ [Event.openArchive f], s.records, s.warnings⟩ e he with h1 | h1
        · simp only at h1
          rcases List.mem_append.mp h1 with h2 | h2
          · exact Or.inl h2
          · exact Or.inr ⟨f, by simpa using h2⟩
        · exact Or.inr h1
      | false =>
        simp only [hz, hr, Bool.false_eq_true, if_false] at he
        rcases ih ⟨s.trace ++ [Event.openArchive f], s.records, s.warnings ++ [f]⟩ e he with h1 | h1
        · simp only at h1
          rcases List.mem_append.mp h1 with h2 | h2
          · exact Or.inl h2
          · exact Or.inr ⟨f, by simpa using h2⟩
        · exact Or.inr h1

theorem signLoop_mono_out (env : Env) (fs : List String) : ∀ s : PState,
    List.Forall₂ recordLE s.records (outState (signLoop env fs s)).records := by
  induction fs with
  | nil => intro s; exact forall₂_recordLE_refl _
  | cons f fs ih =>
    intro s
    rw [signLoop]
    cases hrun : run env (.sign f) s with
    | error s' =>
      have h := run_records_out env (.sign f) s
      rw [hrun] at h
      simp only [outState] at h ⊢
      rw [h]
      exact forall₂_recordLE_refl _
    | ok s' =>
      have h := run_records_out env (.sign f) s
      rw [hrun] at h
      simp only [outState] at h
      have h1 := ih ⟨s'.trace, matchAndMark f s'.records .signed, s'.warnings⟩
      simp only at h1
      refine forall₂_recordLE_trans ?_ h1
      rw [← h]
      exact matchAndMark_mono f s'.records .signed

theorem publishLoop_mono_out (env : Env) (fs : List String) : ∀ s : PState,
    List.Forall₂ recordLE s.records (outState (publishLoop env fs s)).records := by
  induction fs with
  | nil => intro s; exact forall₂_recordLE_refl _
  | cons f fs ih =>
    intro s
    rw [publishLoop]
    cases hrun : run env (.push f) s with
    | error s' =>
      have h := run_records_out env (.push f) s
      rw [hrun] at h
      simp only [outState] at h ⊢
      rw [h]
      exact forall₂_recordLE_refl _
    | ok s' =>
      have h := run_records_out env (.push f) s
      rw [hrun] at h
      simp only [outState] at h
      have h1 := ih ⟨s'.trace, matchAndMark f s'.records .published, s'.warnings⟩
      simp only at h1
      refine forall₂_recordLE_trans ?_ h1
      rw [← h]
      exact matchAndMark_mono f s'.records .published

theorem signLoop_published_false_out (env : Env) (fs : List String) :
    ∀ s : PState, (∀ r ∈ s.records, r.published = false) →
      ∀ r ∈ (outState (signLoop env fs s)).records, r.published = false := by
  induction fs with
  | nil => intro s h; simpa [signLoop, outState] using h
  | cons f fs ih =>
    intro s h
    rw [signLoop]
    cases hrun : run env (.sign f) s with
    | error s' =>
      have hr := run_records_out env (.sign f) s
      rw [hrun] at hr
      simp only [outState] at hr ⊢
      rw [hr]
      exact h
    | ok s' =>
      have hr := run_records_out env (.sign f) s
      rw [hrun] at hr
      simp only [outState] at hr
      refine ih ⟨s'.trace, matchAndMark f s'.records .signed, s'.warnings⟩ ?_
      simp only
      rw [hr]
      exact matchAndMark_signed_published_false f s.records h

theorem signLoop_trace_out (env : Env) (fs : List String) : ∀ (s : PState)
    (e : Event), e ∈ (outState (signLoop env fs s)).trace →
      e ∈ s.trace ∨ ∃ f, e = Event.run (.sign f) := by
  induction fs with
  | nil => intro s e he; exact Or.inl (by simpa [signLoop, outState] using he)
  | cons f fs ih =>
    intro s e he
    rw [signLoop] at he
    cases hrun : run env (.sign f) s with
    | error s' =>
      rw [hrun] at he
      have h := run_trace_out env (.sign f) s
      rw [hrun] at h
      simp only [outState] at he h
      rw [h] at he
      rcases List.mem_append.mp he with h1 | h1
      · exact Or.inl h1
      · exact Or.inr ⟨f, by simpa using h1⟩
    | ok s' =>
      rw [hrun] at he
      have h := run_trace_out env (.sign f) s
      rw [hrun] at h
      simp only [outState] at he h
      rcases ih ⟨s'.trace, matchAndMark f s'.records .signed, s'.warnings⟩ e he with h1 | h1
      · simp only at h1
        rw [h] at h1
        rcases List.mem_append.mp h1 with h2 | h2
        · exact Or.inl h2
        · exact Or.inr ⟨f, by simpa using h2⟩
      · exact Or.inr h1

theorem publishLoop_trace_out (env : Env) (fs : List String) : ∀ (s : PState)
    (e : Event), e ∈ (outState (publishLoop env fs s)).trace →
      e ∈ s.trace ∨ ∃ f, e = Event.run (.push f) := by
  induction fs with
  | nil => intro s e he; exact Or.inl (by simpa [publishLoop, outState] using he)
  | cons f fs ih =>
    intro s e he
    rw [publishLoop] at he
    cases hrun : run env (.push f) s with
    | error s' =>
      rw [hrun] at he
      have h := run_trace_out env (.push f) s
      rw [hrun] at h
      simp only [outState] at he h
      rw [h] at he
      rcases List.mem_append.mp he with h1 | h1
      · exact Or.inl h1
      · exact Or.inr ⟨f, by simpa using h1⟩
    | ok s' =>
      rw [hrun] at he
      have h := run_trace_out env (.push f) s
      rw [hrun] at h
      simp only [outState] at he h
      rcases ih ⟨s'.trace, matchAndMark f s'.records .published, s'.warnings⟩ e he with h1 | h1
      · simp only at h1
        rw [h] at h1
        rcases List.mem_append.mp h1 with h2 | h2
        · exact Or.inl h2
        · exact Or.inr ⟨f, by simpa using h2⟩
      · exact Or.inr h1

theorem signStage_mono_out (env : Env) (args : Args) (s : PState) :
    List.Forall₂ recordLE s.records (outState (signStage env args s)).records := by
  rw [signStage]
  cases hs : args.sign with
  | false => exact forall₂_recordLE_refl _
  | true =>
    simp only [if_true]
    cases hc : truthy args.certPath with
    | false => simp only [if_pos]; exact forall₂_recordLE_refl _
    | true =>
      simp only [Bool.true_eq_false, if_neg, not_false_iff]
      exact signLoop_mono_out env (wideFiles env) s

theorem publishStage_mono_out (env : Env) (args : Args) (s : PState) :
    List.Forall₂ recordLE s.records (outState (publishStage env args s)).records := by
  rw [publishStage]
  cases hs : args.publish with
  | false => exact forall₂_recordLE_refl _
  | true =>
    simp only [if_true]
    cases hc : truthy args.apiKey with
    | false => simp only [if_pos]; exact forall₂_recordLE_refl _
    | true =>
      simp only [Bool.true_eq_false, if_neg, not_false_iff]
      exact publishLoop_mono_out env (wideFiles env) s

theorem signStage_published_false_out (env : Env) (args : Args) (s : PState)
    (h : ∀ r ∈ s.records, r.published = false) :
    ∀ r ∈ (outState (signStage env args s)).records, r.published = false := by
  rw [signStage]
  cases hs : args.sign with
  | false => exact h
  | true =>
    simp only [if_true]
    cases hc : truthy args.certPath with
    | false => simp only [if_pos]; exact h
    | true =>
      simp only [Bool.true_eq_false, if_neg, not_false_iff]
      exact signLoop_published_false_out env (wideFiles env) s h

theorem signStage_trace_out (env : Env) (args : Args) (s : PState) (e : Event)
    (he : e ∈ (outState (signStage env args s)).trace) :
    e ∈ s.trace ∨ ∃ f, e = Event.run (.sign f) := by
  rw [signStage] at he
  cases hs : args.sign with
  | false => rw [hs] at he; simp only [Bool.false_eq_true, if_false] at he; exact Or.inl he
  | true =>
    rw [hs] at he
    simp only [if_true] at he
    cases hc : truthy args.certPath with
    | false => rw [hc] at he; simp only [if_pos] at he; exact Or.inl he
    | true =>
      rw [hc] at he
      simp only [Bool.true_eq_false, if_neg, not_false_iff] at he
      exact signLoop_trace_out env (wideFiles env) s e he

/-! ### Every event preceding the point of failure succeeded -/

/-- All events of a trace succeeded. -/
def allOk (env : Env) (t : List Event) : Prop := ∀ e ∈ t, eventOk env e

/-- A stage outcome is well-behaved: on success every recorded event
succeeded; on failure every recorded event but the last succeeded. -/
def pairOk (env : Env) (x : Except PState PState) : Prop :=
  (∀ s, x = .ok s → allOk env s.trace) ∧
    (∀ s, x = .error s → allOk env s.trace.dropLast)

theorem allOk_append_one {env : Env} {t : List Event} {e : Event}
    (h : allOk env t) (he : eventOk env e) : allOk env (t ++ [e]) := by
  intro e' he'
  rcases List.mem_append.mp he' with h1 | h1
  · exact h e' h1
  · rw [List.mem_singleton.mp h1]; exact he

theorem allOk_dropLast {env : Env} {t : List Event} (h : allOk env t) :
    allOk env t.dropLast :=
  fun e he => h e (t.dropLast_sublist.subset he)

theorem run_pairOk {env : Env} {s : PState} (c : Cmd) (h : allOk env s.trace) :
    pairOk env (run env c s) := by
  by_cases hc : env.exitCode c = 0
  · rw [run_ok s hc]
    constructor
    · intro s' heq
      cases heq
      exact allOk_append_one h hc
    · intro s' heq; cases heq
  · rw [run_err s hc]
    constructor
    · intro s' heq; cases heq
    · intro s' heq
      cases heq
      simpa [List.dropLast_concat] using h

theorem andThen_pairOk {env : Env} {x : Except PState PState}
    {f : PState → Except PState PState} (hx : pairOk env x)
    (hf : ∀ s, allOk env s.trace → pairOk env (f s)) :
    pairOk env (andThen x f) := by
  cases x with
  | error s =>
    constructor
    · intro s' heq; cases heq
    · intro s' heq
      cases heq
      exact hx.2 s rfl
  | ok s => exact hf s (hx.1 s rfl)

theorem packLoop_pairOk (env : Env) (ps : List String) : ∀ s : PState,
    allOk env s.trace → pairOk env (packLoop env ps s) := by
  induction ps with
  | nil =>
    intro s h
    constructor
    · intro s' heq
      rw [packLoop] at heq
      cases heq
      exact h
    · intro s' heq; rw [packLoop] at heq; cases heq
  | cons p ps ih =>
    intro s h
    rw [packLoop]
    cases hrun : run env (.pack p) s with
    | error s' =>
      have hp := run_pairOk (.pack p) h
      rw [hrun] at hp
      constructor
      · intro s'' heq; cases heq
      · intro s'' heq
        cases heq
        exact hp.2 _ rfl
    | ok s' =>
      have hp := run_pairOk (.pack p) h
      rw [hrun] at hp
      exact ih ⟨s'.trace, s'.records ++ [mkRecord p], s'.warnings⟩ (hp.1 s' rfl)

theorem verifyLoop_pairOk (env : Env) (fs : List String) : ∀ s : PState,
    allOk env s.trace → pairOk env (verifyLoop env fs s) := by
  induction fs with
  | nil =>
    intro s h
    constructor
    · intro s' heq
      rw [verifyLoop] at heq
      cases heq
      exact h
    · intro s' heq; rw [verifyLoop] at heq; cases heq
  | cons f fs ih =>
    intro s h
    rw [verifyLoop]
    cases hz : env.zipEntries f with
    | none =>
      constructor
      · intro s' heq; cases heq
      · intro s' heq
        cases heq
        simpa [List.dropLast_concat] using h
    | some entries =>
      have hok : eventOk env (Event.openArchive f) := by
        simp [eventOk, hz]
      by_cases hr : hasReadme entries = true
      · have hi := ih ⟨s.trace ++ [Event.openArchive f], s.records, s.warnings⟩
          (allOk_append_one h hok)
        simpa [hr] using hi
      · have hi := ih ⟨s.trace ++ [Event.openArchive f], s.records, s.warnings ++ [f]⟩
          (allOk_append_one h hok)
        simpa [hr] using hi

theorem signLoop_pairOk (env : Env) (fs : List String) : ∀ s : PState,
    allOk env s.trace → pairOk env (signLoop env fs s) := by
  induction fs with
  | nil =>
    intro s h
    constructor
    · intro s' heq
      rw [signLoop] at heq
      cases heq
      exact h
    · intro s' heq; rw [signLoop] at heq; cases heq
  | cons f fs ih =>
    intro s h
    rw [signLoop]
    cases hrun : run env (.sign f) s with
    | error s' =>
      have hp := run_pairOk (.sign f) h
      rw [hrun] at hp
      constructor
      · intro s'' heq; cases heq
      · intro s'' heq
        cases heq
        exact hp.2 _ rfl
    | ok s' =>
      have hp := run_pairOk (.sign f) h
      rw [hrun] at hp
      exact ih ⟨s'.trace, matchAndMark f s'.records .signed, s'.warnings⟩ (hp.1 s' rfl)

theorem publishLoop_pairOk (env : Env) (fs : List String) : ∀ s : PState,
    allOk env s.trace → pairOk env (publishLoop env fs s) := by
  induction fs with
  | nil =>
    intro s h
    constructor
    · intro s' heq
      rw [publishLoop] at heq
      cases heq
      exact h
    · intro s' heq; rw [publishLoop] at heq; cases heq
  | cons f fs ih =>
    intro s h
    rw [publishLoop]
    cases hrun : run env (.push f) s with
    | error s' =>
      have hp := run_pairOk (.push f) h
      rw [hrun] at hp
      constructor
      · intro s'' heq; cases heq
      · intro s'' heq
        cases heq
        exact hp.2 _ rfl
    | ok s' =>
      have hp := run_pairOk (.push f) h
      rw [hrun] at hp
      exact ih ⟨s'.trace, matchAndMark f s'.records .published, s'.warnings⟩ (hp.1 s' rfl)

theorem signStage_pairOk (env : Env) (args : Args) (s : PState)
    (h : allOk env s.trace) : pairOk env (signStage env args s) := by
  rw [signStage]
  cases args.sign with
  | false =>
    constructor
    · intro s' heq
      simp only [Bool.false_eq_true, if_false] at heq
      cases heq
      exact h
    · intro s' heq; simp only [Bool.false_eq_true, if_false] at heq; cases heq
  | true =>
    simp only [if_true]
    cases truthy args.certPath with
    | false =>
      constructor
      · intro s' heq; simp only [if_pos] at heq; cases heq
      · intro s' heq
        simp only [if_pos] at heq
        cases heq
        exact allOk_dropLast h
    | true =>
      simp only [Bool.true_eq_false, if_neg, not_false_iff]
      exact signLoop_pairOk env (wideFiles env) s h

theorem publishStage_pairOk (env : Env) (args : Args) (s : PState)
    (h : allOk env s.trace) : pairOk env (publishStage env args s) := by
  rw [publishStage]
  cases args.publish with
  | false =>
    constructor
    · intro s' heq
      simp only [Bool.false_eq_true, if_false] at heq
      cases heq
      exact h
    · intro s' heq; simp only [Bool.false_eq_true, if_false] at heq; cases heq
  | true =>
    simp only [if_true]
    cases truthy args.apiKey with
    | false =>
      constructor
      · intro s' heq; simp only [if_pos] at heq; cases heq
      · intro s' heq
        simp only [if_pos] at heq
        cases heq
        exact allOk_dropLast h
    | true =>
      simp only [Bool.true_eq_false, if_neg, not_false_iff]
      exact publishLoop_pairOk env (wideFiles env) s h

theorem mainE_pairOk (env : Env) (args : Args) (ps : List String) :
    pairOk env (mainE env args ps) := by
  unfold mainE
  refine andThen_pairOk (andThen_pairOk (andThen_pairOk (andThen_pairOk
    (andThen_pairOk ?_ ?_) ?_) ?_) ?_) ?_
  · exact run_pairOk .restore (by intro e he; cases he)
  · intro s h; exact run_pairOk .build h
  · intro s h; exact packLoop_pairOk env ps s h
  · intro s h; exact verifyLoop_pairOk env (verifyFiles env) s h
  · intro s h; exact signStage_pairOk env args s h
  · intro s h; exact publishStage_pairOk env args s h

/-! ### The sorted iteration order and the two glob patterns -/

theorem charLe_total : ∀ as bs : List Char, charLe as bs = true ∨ charLe bs as = true := by
  intro as
  induction as with
  | nil => intro bs; exact Or.inl rfl
  | cons a as ih =>
    intro bs
    cases bs with
    | nil => exact Or.inr rfl
    | cons b bs =>
      by_cases hab : a.toNat = b.toNat
      · rcases ih bs with h | h
        · exact Or.inl (by simp [charLe, hab, h])
        · exact Or.inr (by simp [charLe, hab.symm, h])
      · rcases Nat.lt_or_ge a.toNat b.toNat with hlt | hge
        · exact Or.inl (by simp [charLe, hab, hlt])
        · have hba : b.toNat ≠ a.toNat := fun h => hab h.symm
          have hlt : b.toNat < a.toNat := lt_of_le_of_ne hge hba
          exact Or.inr (by simp [charLe, hba, hlt])

theorem charLe_trans : ∀ as bs cs : List Char,
    charLe as bs = true → charLe bs cs = true → charLe as cs = true := by
  intro as
  induction as with
  | nil => intro bs cs _ _; rfl
  | cons a as ih =>
    intro bs cs h1 h2
    cases bs with
    | nil => simp [charLe] at h1
    | cons b bs =>
      cases cs with
      | nil => simp [charLe] at h2
      | cons c cs =>
        by_cases hab : a.toNat = b.toNat
        · by_cases hbc : b.toNat = c.toNat
          · have hac : a.toNat = c.toNat := hab.trans hbc
            simp only [charLe, hab, if_pos] at h1
            simp only [charLe, hbc, if_pos] at h2
            simp [charLe, hac, ih bs cs h1 h2]
          · simp only [charLe, hbc, if_neg, not_false_iff, decide_eq_true_eq] at h2
            have hac : a.toNat < c.toNat := hab ▸ h2
            have hane : a.toNat ≠ c.toNat := Nat.ne_of_lt hac
            simp [charLe, hane, hac]
        · simp only [charLe, hab, if_neg, not_false_iff, decide_eq_true_eq] at h1
          by_cases hbc : b.toNat = c.toNat
          · have hac : a.toNat < c.toNat := hbc ▸ h1
            have hane : a.toNat ≠ c.toNat := Nat.ne_of_lt hac
            simp [charLe, hane, hac]
          · simp only [charLe, hbc, if_neg, not_false_iff, decide_eq_true_eq] at h2
            have hac : a.toNat < c.toNat := h1.trans h2
            have hane : a.toNat ≠ c.toNat := Nat.ne_of_lt hac
            simp [charLe, hane, hac]

instance : IsTotal String strLe :=
  ⟨fun a b => by
    rcases charLe_total a.data b.data with h | h
    · exact Or.inl h
    · exact Or.inr h⟩

instance : IsTrans String strLe :=
  ⟨fun a b c h1 h2 => charLe_trans a.data b.data c.data h1 h2⟩

theorem sortFiles_sorted (fs : List String) :
    (sortFiles fs).Sorted strLe := List.sorted_insertionSort strLe fs

theorem sortFiles_perm (fs : List String) : List.Perm (sortFiles fs) fs :=
  List.perm_insertionSort strLe fs

theorem mem_sortFiles {f : String} {fs : List String} :
    f ∈ sortFiles fs ↔ f ∈ fs := (sortFiles_perm fs).mem_iff

theorem sortFiles_nodup {fs : List String} (h : fs.Nodup) :
    (sortFiles fs).Nodup := ((sortFiles_perm fs).nodup_iff).mpr h

theorem strEndsWith_iff {s p : String} :
    strEndsWith s p = true ↔ ∃ t, s.data = t ++ p.data := by
  rw [strEndsWith, List.isPrefixOf_iff_prefix]
  constructor
  · rintro ⟨t, ht⟩
    refine ⟨t.reverse, ?_⟩
    have := congrArg List.reverse ht
    simpa using this.symm
  · rintro ⟨t, ht⟩
    refine ⟨t.reverse, ?_⟩
    rw [ht]
    simp

theorem globNupkg_sub_globAllNupkg {f : String} (h : globNupkg f = true) :
    globAllNupkg f = true := by
  rw [globNupkg] at h
  obtain ⟨t, ht⟩ := strEndsWith_iff.mp h
  rw [globAllNupkg, Bool.and_eq_true]
  constructor
  · exact strEndsWith_iff.mpr ⟨t ++ ['.'], by simp [ht]⟩
  · rw [ht]
    have hlen : (t ++ ".nupkg".data).length - 5 = t.length + 1 := by
      simp [List.length_append]
    rw [hlen, List.take_append_eq_append_take]
    simp

theorem verifyFiles_sub_wideFiles (env : Env) :
    ∀ f ∈ verifyFiles env, f ∈ wideFiles env := by
  intro f hf
  rw [verifyFiles, mem_sortFiles, List.mem_filter] at hf
  rw [wideFiles, mem_sortFiles, List.mem_filter]
  exact ⟨hf.1, globNupkg_sub_globAllNupkg hf.2⟩

/-! ### The fully successful run, characterised -/

/-- Event trace of a run in which every external command succeeds and every
archive opens. -/
def finalTrace (env : Env) (args : Args) (ps : List String) : List Event :=
  [Event.run .restore, Event.run .build] ++ ps.map (fun p => Event.run (.pack p))
    ++ (verifyFiles env).map Event.openArchive
    ++ (if args.sign then (wideFiles env).map (fun f => Event.run (.sign f)) else [])
    ++ (if args.publish then (wideFiles env).map (fun f => Event.run (.push f)) else [])

/-- Registry contents of a fully successful run. -/
def finalRecords (env : Env) (args : Args) (ps : List String) : List ArtifactRecord :=
  let rs1 := ps.map mkRecord
  let rs2 := if args.sign
    then (wideFiles env).foldl (fun rs f => matchAndMark f rs .signed) rs1 else rs1
  if args.publish
    then (wideFiles env).foldl (fun rs f => matchAndMark f rs .published) rs2 else rs2

/-- Verify-stage warnings of a fully successful run: the archives whose
entry list has no README entry. -/
def finalWarnings (env : Env) : List String :=
  (verifyFiles env).filter (fun f => !hasReadme ((env.zipEntries f).getD []))

theorem signStage_ok_char (env : Env) (args : Args) (s : PState)
    (hsg : args.sign = true → truthy args.certPath = true ∧
      ∀ f ∈ wideFiles env, env.exitCode (.sign f) = 0) :
    signStage env args s = .ok
      ⟨s.trace ++ (if args.sign then (wideFiles env).map (fun f => Event.run (.sign f)) else []),
       (if args.sign
          then (wideFiles env).foldl (fun rs f => matchAndMark f rs .signed) s.records
          else s.records),
       s.warnings⟩ := by
  cases hs : args.sign with
  | false => simp [signStage, hs]
  | true =>
    obtain ⟨hc, hall⟩ := hsg hs
    rw [signStage]
    simp only [hs, if_true, hc, Bool.true_eq_false, if_neg, not_false_iff]
    rw [signLoop_ok_char env (wideFiles env) s hall]

theorem publishStage_ok_char (env : Env) (args : Args) (s : PState)
    (hpu : args.publish = true → truthy args.apiKey = true ∧
      ∀ f ∈ wideFiles env, env.exitCode (.push f) = 0) :
    publishStage env args s = .ok
      ⟨s.trace ++ (if args.publish then (wideFiles env).map (fun f => Event.run (.push f)) else []),
       (if args.publish
          then (wideFiles env).foldl (fun rs f => matchAndMark f rs .published) s.records
          else s.records),
       s.warnings⟩ := by
  cases hs : args.publish with
  | false => simp [publishStage, hs]
  | true =>
    obtain ⟨hc, hall⟩ := hpu hs
    rw [publishStage]
    simp only [hs, if_true, hc, Bool.true_eq_false, if_neg, not_false_iff]
    rw [publishLoop_ok_char env (wideFiles env) s hall]

theorem main_ok_char (env : Env) (args : Args) (ps : List String)
    (hr : env.exitCode .restore = 0) (hb : env.exitCode .build = 0)
    (hp : ∀ p ∈ ps, env.exitCode (.pack p) = 0)
    (hz : ∀ f ∈ verifyFiles env, env.zipEntries f ≠ none)
    (hsg : args.sign = true → truthy args.certPath = true ∧
      ∀ f ∈ wideFiles env, env.exitCode (.sign f) = 0)
    (hpu : args.publish = true → truthy args.apiKey = true ∧
      ∀ f ∈ wideFiles env, env.exitCode (.push f) = 0) :
    main env args ps = .done
      ⟨finalTrace env args ps, finalRecords env args ps, finalWarnings env⟩ := by
  rw [main_eq_mainE]
  unfold mainE
  rw [andThen_ok (run_ok initState hr)]
  rw [andThen_ok (run_ok _ hb)]
  rw [andThen_ok (packLoop_ok_char env ps _ hp)]
  rw [andThen_ok (verifyLoop_ok_char env (verifyFiles env) _ hz)]
  rw [andThen_ok (signStage_ok_char env args _ hsg)]
  rw [publishStage_ok_char env args _ hpu]
  simp [finalTrace, finalRecords, finalWarnings, initState, List.append_assoc]

/-! ### Concrete runs used to instantiate the properties -/

/-- A world where every command succeeds, the output directory holds a
package and its companion symbols package, and every archive has a README. -/
def envW : Env :=
  ⟨fun _ => 0, ["Alpha.1.0.0.nupkg", "Alpha.1.0.0.snupkg"], fun _ => some ["README.md"]⟩

/-- A world where every command succeeds and the produced archive has no
README entry. -/
def envNoReadmeW : Env :=
  ⟨fun _ => 0, ["Alpha.1.0.0.nupkg"], fun _ => some ["lib/Alpha.dll"]⟩

/-- A world where every command fails. -/
def envFailW : Env := ⟨fun _ => 1, [], fun _ => none⟩

/-- A world where exactly the pack commands fail. -/
def envPackFailW : Env :=
  ⟨fun c => match c with | .pack _ => 1 | _ => 0, [], fun _ => some []⟩

/-- A one-project list. -/
def psW : List String := ["src/core/Alpha/Alpha.csproj"]

/-- Options requesting both sign and publish, fully configured. -/
def argsAllW : Args := ⟨"1.0.0", some "key", true, true, some "cert.pfx", none⟩

/-- Default dry-run options. -/
def argsDryW : Args := ⟨"1.0.0", none, false, false, none, none⟩

/-! ### The claimed properties -/

/-- C1: after the Pack stage completes successfully the registry holds
exactly one record per project spec, in list order, each freshly created
with `packed=true`, `signed=false`, `published=false`. -/
theorem pack_stage_registry (env : Env) (ps : List String) (s s' : PState)
    (hrec : s.records = []) (h : packLoop env ps s = .ok s') :
    s'.records = ps.map mkRecord ∧
      ∀ r ∈ s'.records, r.packed = true ∧ r.signed = false ∧ r.published = false := by
  have h1 := packLoop_ok_records env ps s s' h
  rw [hrec] at h1
  simp only [List.nil_append] at h1
  refine ⟨h1, ?_⟩
  intro r hr
  rw [h1, List.mem_map] at hr
  obtain ⟨p, _, rfl⟩ := hr
  exact ⟨rfl, rfl, rfl⟩

theorem pack_stage_registry_witness :
    ([mkRecord "src/core/Alpha/Alpha.csproj"] : List ArtifactRecord) = psW.map mkRecord ∧
      ∀ r ∈ ([mkRecord "src/core/Alpha/Alpha.csproj"] : List ArtifactRecord),
        r.packed = true ∧ r.signed = false ∧ r.published = false :=
  pack_stage_registry envW psW initState
    ⟨[Event.run (.pack "src/core/Alpha/Alpha.csproj")],
     [mkRecord "src/core/Alpha/Alpha.csproj"], []⟩ rfl rfl

/-- C2: the name-matching test of the sign and publish stages holds exactly
when the record name followed by a dot is a prefix of the archive filename;
`Foo` matches `Foo.1.2.3.archive` and `Foo.1.2.3.symbols.archive` but not
`FooBar.1.0.0.archive`. -/
theorem name_matching_prefix :
    (∀ a n : String, matchesRecord a n = true ↔ (n ++ ".").data <+: a.data) ∧
    matchesRecord "Foo.1.2.3.archive" "Foo" = true ∧
    matchesRecord "Foo.1.2.3.symbols.archive" "Foo" = true ∧
    matchesRecord "FooBar.1.0.0.archive" "Foo" = false := by
  refine ⟨?_, by decide, by decide, by decide⟩
  intro a n
  rw [matchesRecord, strStartsWith, List.isPrefixOf_iff_prefix]

/-- C3: a failing pack invocation for project `p` (after the successfully
packed prefix `ps1`) halts the run with no pack invocation beyond `p`, the
registry holding exactly the records of `ps1`, each `packed=true`. -/
theorem pack_failure_halts (env : Env) (args : Args) (ps1 : List String)
    (p : String) (ps2 : List String)
    (hr : env.exitCode .restore = 0) (hb : env.exitCode .build = 0)
    (h1 : ∀ q ∈ ps1, env.exitCode (.pack q) = 0)
    (hp : env.exitCode (.pack p) ≠ 0) :
    ∃ s, main env args (ps1 ++ p :: ps2) = .fatal s ∧
      s.records = ps1.map mkRecord ∧
      (∀ r ∈ s.records, r.packed = true) ∧
      s.trace = [Event.run .restore, Event.run .build]
        ++ ps1.map (fun q => Event.run (.pack q)) ++ [Event.run (.pack p)] ∧
      (∀ q, Event.run (.pack q) ∈ s.trace → q ∈ ps1 ∨ q = p) := by
  rw [main_eq_mainE]
  unfold mainE
  rw [andThen_ok (run_ok initState hr)]
  rw [andThen_ok (run_ok _ hb)]
  rw [andThen_err (packLoop_err_char env ps1 p ps2 _ h1 hp)]
  rw [andThen_err rfl, andThen_err rfl]
  refine ⟨_, rfl, ?_, ?_, ?_, ?_⟩
  · simp [initState]
  · intro r hr'
    simp only [initState] at hr'
    simp only [List.nil_append] at hr'
    rw [List.mem_map] at hr'
    obtain ⟨q, _, rfl⟩ := hr'
    rfl
  · simp [initState]
  · intro q hq
    simp only [initState, List.nil_append, List.append_assoc] at hq
    rcases List.mem_append.mp hq with h2 | h2
    · simp at h2
    · rcases List.mem_append.mp h2 with h3 | h3
      · simp at h3
      · rcases List.mem_append.mp h3 with h4 | h4
        · rw [List.mem_map] at h4
          obtain ⟨q', hq', hqe⟩ := h4
          have hqq : q' = q := by simpa using hqe
          exact Or.inl (hqq ▸ hq')
        · have h5 := List.mem_singleton.mp h4
          have h7 : q = p := by simpa using h5
          exact Or.inr h7

theorem pack_failure_halts_witness :
    ∃ s, main envPackFailW argsDryW ([] ++ "src/core/Alpha/Alpha.csproj" :: []) = .fatal s ∧
      s.records = ([] : List String).map mkRecord ∧
      (∀ r ∈ s.records, r.packed = true) ∧
      s.trace = [Event.run .restore, Event.run .build]
        ++ ([] : List String).map (fun q => Event.run (.pack q))
        ++ [Event.run (.pack "src/core/Alpha/Alpha.csproj")] ∧
      (∀ q, Event.run (.pack q) ∈ s.trace → q ∈ ([] : List String)
        ∨ q = "src/core/Alpha/Alpha.csproj") :=
  pack_failure_halts envPackFailW argsDryW [] "src/core/Alpha/Alpha.csproj" []
    rfl rfl (by simp) (by decide)

/-- C4 counterexample: in a fully successful run whose output directory
holds a symbols archive `Alpha.1.0.0.snupkg`, the sign stage invokes the
signer on that archive (it matches `*.*nupkg`), but the verify stage never
opens it (it does not match `*.nupkg`) — so not every archive inspected by
Sign is inspected by Verify. -/
theorem verify_sign_iteration_counterexample :
    "Alpha.1.0.0.snupkg" ∈ envW.outputFiles ∧
    Event.run (.sign "Alpha.1.0.0.snupkg") ∈ (main envW argsAllW psW).state.trace ∧
    Event.run (.push "Alpha.1.0.0.snupkg") ∈ (main envW argsAllW psW).state.trace ∧
    Event.openArchive "Alpha.1.0.0.snupkg" ∉ (main envW argsAllW psW).state.trace := by
  decide

/-- C4 amended: in a fully successful run with sign and publish requested,
Verify runs after all pack invocations and iterates the `*.nupkg` archives,
then Sign and then Publish iterate the `*.*nupkg` archives; each stage
visits its archive list exactly once (no duplicates), in sorted filename
order, and every archive inspected by Verify is also inspected by Sign and
Publish (the converse fails, see the counterexample). -/
theorem verify_sign_publish_iteration (env : Env) (args : Args) (ps : List String)
    (hsgn : args.sign = true) (hpub : args.publish = true)
    (hc : truthy args.certPath = true) (hk : truthy args.apiKey = true)
    (hr : env.exitCode .restore = 0) (hb : env.exitCode .build = 0)
    (hp : ∀ p ∈ ps, env.exitCode (.pack p) = 0)
    (hz : ∀ f ∈ verifyFiles env, env.zipEntries f ≠ none)
    (hsall : ∀ f ∈ wideFiles env, env.exitCode (.sign f) = 0)
    (hpall : ∀ f ∈ wideFiles env, env.exitCode (.push f) = 0)
    (hnd : env.outputFiles.Nodup) :
    ∃ s, main env args ps = .done s ∧
      s.trace = [Event.run .restore, Event.run .build]
        ++ ps.map (fun p => Event.run (.pack p))
        ++ (verifyFiles env).map Event.openArchive
        ++ (wideFiles env).map (fun f => Event.run (.sign f))
        ++ (wideFiles env).map (fun f => Event.run (.push f)) ∧
      (verifyFiles env).Sorted strLe ∧ (wideFiles env).Sorted strLe ∧
      (verifyFiles env).Nodup ∧ (wideFiles env).Nodup ∧
      ∀ f ∈ verifyFiles env, f ∈ wideFiles env := by
  refine ⟨_, main_ok_char env args ps hr hb hp hz
    (fun _ => ⟨hc, hsall⟩) (fun _ => ⟨hk, hpall⟩), ?_, ?_, ?_, ?_, ?_, ?_⟩
  · simp [finalTrace, hsgn, hpub]
  · exact sortFiles_sorted _
  · exact sortFiles_sorted _
  · exact sortFiles_nodup (hnd.filter _)
  · exact sortFiles_nodup (hnd.filter _)
  · exact verifyFiles_sub_wideFiles env

theorem verify_sign_publish_iteration_witness :
    ∃ s, main envW argsAllW psW = .done s ∧
      s.trace = [Event.run .restore, Event.run .build]
        ++ psW.map (fun p => Event.run (.pack p))
        ++ (verifyFiles envW).map Event.openArchive
        ++ (wideFiles envW).map (fun f => Event.run (.sign f))
        ++ (wideFiles envW).map (fun f => Event.run (.push f)) ∧
      (verifyFiles envW).Sorted strLe ∧ (wideFiles envW).Sorted strLe ∧
      (verifyFiles envW).Nodup ∧ (wideFiles envW).Nodup ∧
      ∀ f ∈ verifyFiles envW, f ∈ wideFiles envW :=
  verify_sign_publish_iteration envW argsAllW psW rfl rfl (by decide) (by decide)
    rfl rfl (by decide) (by decide) (by decide) (by decide) (by decide)

theorem signStage_configErr (env : Env) (args : Args) (s : PState)
    (hs : args.sign = true) (hc : truthy args.certPath = false) :
    signStage env args s = .error s := by
  simp [signStage, hs, hc]

theorem signStage_skip (env : Env) (args : Args) (s : PState)
    (hs : args.sign = false) : signStage env args s = .ok s := by
  simp [signStage, hs]

theorem publishStage_configErr (env : Env) (args : Args) (s : PState)
    (hs : args.publish = true) (hc : truthy args.apiKey = false) :
    publishStage env args s = .error s := by
  simp [publishStage, hs, hc]

/-- C5: reaching the sign stage with no `--cert-path` (resp. the publish
stage with no `--api-key`) is fatal before the dependent tool runs once: no
sign (resp. push) command appears in the trace and no record is marked. -/
theorem config_error_before_tool (env : Env) (ps : List String)
    (hr : env.exitCode .restore = 0) (hb : env.exitCode .build = 0)
    (hp : ∀ p ∈ ps, env.exitCode (.pack p) = 0)
    (hz : ∀ f ∈ verifyFiles env, env.zipEntries f ≠ none) :
    (∀ (v : String) (k : Option String) (pub : Bool) (cpw : Option String),
      ∃ s, main env ⟨v, k, pub, true, none, cpw⟩ ps = .fatal s ∧
        (∀ f, Event.run (.sign f) ∉ s.trace) ∧
        (∀ f, Event.run (.push f) ∉ s.trace) ∧
        ∀ r ∈ s.records, r.signed = false ∧ r.published = false) ∧
    (∀ (v : String) (cp cpw : Option String),
      ∃ s, main env ⟨v, none, true, false, cp, cpw⟩ ps = .fatal s ∧
        (∀ f, Event.run (.push f) ∉ s.trace) ∧
        ∀ r ∈ s.records, r.published = false) := by
  constructor
  · intro v k pub cpw
    rw [main_eq_mainE]
    unfold mainE
    rw [andThen_ok (run_ok initState hr)]
    rw [andThen_ok (run_ok _ hb)]
    rw [andThen_ok (packLoop_ok_char env ps _ hp)]
    rw [andThen_ok (verifyLoop_ok_char env (verifyFiles env) _ hz)]
    rw [andThen_err (signStage_configErr env ⟨v, k, pub, true, none, cpw⟩ _ rfl rfl)]
    refine ⟨_, rfl, ?_, ?_, ?_⟩
    · intro f hf
      simp [initState] at hf
    · intro f hf
      simp [initState] at hf
    · intro r hrr
      simp only [initState, List.nil_append] at hrr
      rw [List.mem_map] at hrr
      obtain ⟨p, _, rfl⟩ := hrr
      exact ⟨rfl, rfl⟩
  · intro v cp cpw
    rw [main_eq_mainE]
    unfold mainE
    rw [andThen_ok (run_ok initState hr)]
    rw [andThen_ok (run_ok _ hb)]
    rw [andThen_ok (packLoop_ok_char env ps _ hp)]
    rw [andThen_ok (verifyLoop_ok_char env (verifyFiles env) _ hz)]
    rw [andThen_ok (signStage_skip env ⟨v, none, true, false, cp, cpw⟩ _ rfl)]
    rw [publishStage_configErr env ⟨v, none, true, false, cp, cpw⟩ _ rfl rfl]
    refine ⟨_, rfl, ?_, ?_⟩
    · intro f hf
      simp [initState] at hf
    · intro r hrr
      simp only [initState, List.nil_append] at hrr
      rw [List.mem_map] at hrr
      obtain ⟨p, _, rfl⟩ := hrr
      rfl

theorem config_error_before_tool_witness :
    ∃ s, main envW ⟨"1.0.0", none, false, true, none, none⟩ psW = .fatal s ∧
      (∀ f, Event.run (.sign f) ∉ s.trace) ∧
      (∀ f, Event.run (.push f) ∉ s.trace) ∧
      ∀ r ∈ s.records, r.signed = false ∧ r.published = false :=
  (config_error_before_tool envW psW rfl rfl (by decide) (by decide)).1
    "1.0.0" none false none

/-- C6: the command runner with `check=True` reports the failing command
(recorded as the last trace event) and stops the whole run: a non-zero exit
yields an error state, a zero exit returns the state and the run continues;
consequently, in every completed run all recorded events succeeded, and in
every fatal run all events but possibly the last succeeded — nothing ever
executes after a failure. -/
theorem runner_failure_stops_run (env : Env) (args : Args) (ps : List String) :
    (∀ (c : Cmd) (s : PState), env.exitCode c ≠ 0 →
      run env c s = .error ⟨s.trace ++ [Event.run c], s.records, s.warnings⟩) ∧
    (∀ (c : Cmd) (s : PState), env.exitCode c = 0 →
      run env c s = .ok ⟨s.trace ++ [Event.run c], s.records, s.warnings⟩) ∧
    (∀ s, main env args ps = .done s → ∀ e ∈ s.trace, eventOk env e) ∧
    (∀ s, main env args ps = .fatal s → ∀ e ∈ s.trace.dropLast, eventOk env e) := by
  refine ⟨fun c s h => run_err s h, fun c s h => run_ok s h, ?_, ?_⟩
  · intro s hdone
    exact (mainE_pairOk env args ps).1 s ((main_done_iff env args ps s).mp hdone)
  · intro s hfatal
    exact (mainE_pairOk env args ps).2 s ((main_fatal_iff env args ps s).mp hfatal)

/-- The state in which the dry run over `envW` completes. -/
def doneW : PState :=
  ⟨[Event.run .restore, Event.run .build,
    Event.run (.pack "src/core/Alpha/Alpha.csproj"),
    Event.openArchive "Alpha.1.0.0.nupkg"],
   [mkRecord "src/core/Alpha/Alpha.csproj"], []⟩

theorem runner_failure_stops_run_witness :
    run envW .restore initState = .ok ⟨[Event.run .restore], [], []⟩ ∧
    run envFailW .restore initState = .error ⟨[Event.run .restore], [], []⟩ ∧
    eventOk envW (Event.run .restore) :=
  ⟨(runner_failure_stops_run envW argsDryW psW).2.1 .restore initState rfl,
   (runner_failure_stops_run envFailW argsDryW psW).1 .restore initState (by decide),
   (runner_failure_stops_run envW argsDryW psW).2.2.1 doneW (by decide)
     (Event.run .restore) (by decide)⟩

/-- C7: with the publish flag unset, no push command is ever launched during
the run (whatever its outcome and whether or not sign is set), and every
record's `published` field is still `false` at the end. -/
theorem dry_run_no_publish (env : Env) (args : Args) (ps : List String)
    (h : args.publish = false) :
    (∀ f, Event.run (.push f) ∉ (main env args ps).state.trace) ∧
    ∀ r ∈ (main env args ps).state.records, r.published = false := by
  rw [main_state_eq]
  unfold mainE
  refine andThen_pres
    (P := fun s => (∀ f, Event.run (.push f) ∉ s.trace) ∧
      ∀ r ∈ s.records, r.published = false) _ _ ?_ ?_
  · refine andThen_pres (P := fun s => (∀ f, Event.run (.push f) ∉ s.trace) ∧
      ∀ r ∈ s.records, r.published = false) _ _ ?_ ?_
    · refine andThen_pres (P := fun s => (∀ f, Event.run (.push f) ∉ s.trace) ∧
        ∀ r ∈ s.records, r.published = false) _ _ ?_ ?_
      · refine andThen_pres (P := fun s => (∀ f, Event.run (.push f) ∉ s.trace) ∧
          ∀ r ∈ s.records, r.published = false) _ _ ?_ ?_
        · refine andThen_pres (P := fun s => (∀ f, Event.run (.push f) ∉ s.trace) ∧
            ∀ r ∈ s.records, r.published = false) _ _ ?_ ?_
          · constructor
            · intro f hf
              rw [run_trace_out] at hf
              rcases List.mem_append.mp hf with h1 | h1
              · cases h1
              · have h2 := List.mem_singleton.mp h1
                cases h2
            · intro r hr
              rw [run_records_out] at hr
              cases hr
          · intro s hs
            constructor
            · intro f hf
              rw [run_trace_out] at hf
              rcases List.mem_append.mp hf with h1 | h1
              · exact hs.1 f h1
              · have h2 := List.mem_singleton.mp h1
                cases h2
            · intro r hr
              rw [run_records_out] at hr
              exact hs.2 r hr
        · intro s hs
          constructor
          · intro f hf
            rcases packLoop_trace_out env ps s (Event.run (.push f)) hf with h1 | ⟨p, h1⟩
            · exact hs.1 f h1
            · cases h1
          · intro r hr
            obtain ⟨qs, rest, _, hrec⟩ := packLoop_records_out env ps s
            rw [hrec] at hr
            rcases List.mem_append.mp hr with h1 | h1
            · exact hs.2 r h1
            · rw [List.mem_map] at h1
              obtain ⟨p, _, rfl⟩ := h1
              rfl
      · intro s hs
        constructor
        · intro f hf
          rcases verifyLoop_trace_out env (verifyFiles env) s
              (Event.run (.push f)) hf with h1 | ⟨g, h1⟩
          · exact hs.1 f h1
          · cases h1
        · intro r hr
          rw [verifyLoop_records_out] at hr
          exact hs.2 r hr
    · intro s hs
      constructor
      · intro f hf
        rcases signStage_trace_out env args s (Event.run (.push f)) hf with h1 | ⟨g, h1⟩
        · exact hs.1 f h1
        · cases h1
      · exact signStage_published_false_out env args s hs.2
  · intro s hs
    have hskip : publishStage env args s = .ok s := by
      simp [publishStage, h]
    rw [hskip]
    exact hs

theorem dry_run_no_publish_witness :
    Event.run (.push "Alpha.1.0.0.nupkg") ∉ (main envW argsDryW psW).state.trace :=
  (dry_run_no_publish envW argsDryW psW rfl).1 "Alpha.1.0.0.nupkg"

/-- C8: when every archive opens as a valid zip (no assumption about README
contents), the run completes with exit status 0, the warnings are exactly
the verified archives lacking a README entry, and the sign and publish
stages still run when requested. -/
theorem missing_readme_warns_only (env : Env) (args : Args) (ps : List String)
    (hr : env.exitCode .restore = 0) (hb : env.exitCode .build = 0)
    (hp : ∀ p ∈ ps, env.exitCode (.pack p) = 0)
    (hz : ∀ f ∈ verifyFiles env, env.zipEntries f ≠ none)
    (hsg : args.sign = true → truthy args.certPath = true ∧
      ∀ f ∈ wideFiles env, env.exitCode (.sign f) = 0)
    (hpu : args.publish = true → truthy args.apiKey = true ∧
      ∀ f ∈ wideFiles env, env.exitCode (.push f) = 0) :
    ∃ s, main env args ps = .done s ∧
      s.warnings = (verifyFiles env).filter
        (fun f => !hasReadme ((env.zipEntries f).getD [])) ∧
      (args.sign = true → ∀ f ∈ wideFiles env, Event.run (.sign f) ∈ s.trace) ∧
      (args.publish = true → ∀ f ∈ wideFiles env, Event.run (.push f) ∈ s.trace) := by
  refine ⟨_, main_ok_char env args ps hr hb hp hz hsg hpu, rfl, ?_, ?_⟩
  · intro hs f hf
    show Event.run (.sign f) ∈ finalTrace env args ps
    rw [finalTrace]
    refine List.mem_append.mpr (Or.inl (List.mem_append.mpr (Or.inr ?_)))
    rw [if_pos hs]
    exact List.mem_map.mpr ⟨f, hf, rfl⟩
  · intro hs f hf
    show Event.run (.push f) ∈ finalTrace env args ps
    rw [finalTrace]
    refine List.mem_append.mpr (Or.inr ?_)
    rw [if_pos hs]
    exact List.mem_map.mpr ⟨f, hf, rfl⟩

theorem missing_readme_warns_only_witness :
    ∃ s, main envNoReadmeW argsAllW psW = .done s ∧
      s.warnings = (verifyFiles envNoReadmeW).filter
        (fun f => !hasReadme ((envNoReadmeW.zipEntries f).getD [])) ∧
      (argsAllW.sign = true →
        ∀ f ∈ wideFiles envNoReadmeW, Event.run (.sign f) ∈ s.trace) ∧
      (argsAllW.publish = true →
        ∀ f ∈ wideFiles envNoReadmeW, Event.run (.push f) ∈ s.trace) :=
  missing_readme_warns_only envNoReadmeW argsAllW psW rfl rfl (by decide)
    (by decide) (fun _ => ⟨by decide, by decide⟩) (fun _ => ⟨by decide, by decide⟩)

/-- C9: `matchAndMark` is idempotent: marking the same archive and field a
second time leaves the registry exactly as after the first marking. -/
theorem matchAndMark_idempotent :
    ∀ (a : String) (recs : List ArtifactRecord) (fld : MarkField),
      matchAndMark a (matchAndMark a recs fld) fld = matchAndMark a recs fld :=
  matchAndMark_idem

/-- C10: registry flags are monotone and names immutable: the only mutation
of existing records, `matchAndMark`, keeps every record's name and can only
turn flags from `false` to `true`; and whatever the run's outcome, the
final registry is a monotone evolution of the records created (with
`packed=true`, `signed=false`, `published=false`) for a prefix of the
project list. -/
theorem registry_monotone :
    (∀ (a : String) (recs : List ArtifactRecord) (fld : MarkField),
      List.Forall₂ recordLE recs (matchAndMark a recs fld)) ∧
    ∀ (env : Env) (args : Args) (ps : List String),
      ∃ qs rest, ps = qs ++ rest ∧
        List.Forall₂ recordLE (qs.map mkRecord) (main env args ps).state.records := by
  refine ⟨matchAndMark_mono, ?_⟩
  intro env args ps
  rw [main_state_eq]
  unfold mainE
  have h3 : ∃ qs rest, ps = qs ++ rest ∧
      (outState (andThen (andThen (run env .restore initState) (run env .build))
        (packLoop env ps))).records = qs.map mkRecord := by
    cases hx : run env Cmd.restore initState with
    | error s =>
      refine ⟨[], ps, rfl, ?_⟩
      rw [andThen_err (andThen_err rfl)]
      have h := run_records_out env .restore initState
      rw [hx] at h
      simpa [outState, initState] using h
    | ok s =>
      rw [andThen_ok (rfl : (Except.ok s : Except PState PState) = .ok s)]
      have hsrec : s.records = [] := by
        have h := run_records_out env .restore initState
        rw [hx] at h
        simpa [outState, initState] using h
      cases hx2 : run env Cmd.build s with
      | error s2 =>
        refine ⟨[], ps, rfl, ?_⟩
        rw [andThen_err (rfl : (Except.error s2 : Except PState PState) = .error s2)]
        have h := run_records_out env .build s
        rw [hx2] at h
        simp only [outState] at h ⊢
        rw [h, hsrec]
        rfl
      | ok s2 =>
        rw [andThen_ok (rfl : (Except.ok s2 : Except PState PState) = .ok s2)]
        have hs2rec : s2.records = [] := by
          have h := run_records_out env .build s
          rw [hx2] at h
          simp only [outState] at h
          rw [h, hsrec]
        obtain ⟨qs, rest, hsplit, hrec⟩ := packLoop_records_out env ps s2
        refine ⟨qs, rest, hsplit, ?_⟩
        rw [hrec, hs2rec]
        simp
  obtain ⟨qs, rest, hsplit, hrec⟩ := h3
  refine ⟨qs, rest, hsplit, ?_⟩
  refine andThen_pres
    (P := fun s => List.Forall₂ recordLE (qs.map mkRecord) s.records) _ _ ?_ ?_
  · refine andThen_pres
      (P := fun s => List.Forall₂ recordLE (qs.map mkRecord) s.records) _ _ ?_ ?_
    · refine andThen_pres
        (P := fun s => List.Forall₂ recordLE (qs.map mkRecord) s.records) _ _ ?_ ?_
      · show List.Forall₂ recordLE (qs.map mkRecord)
          (outState (andThen (andThen (run env .restore initState) (run env .build))
            (packLoop env ps))).records
        rw [hrec]
        exact forall₂_recordLE_refl _
      · intro s hs
        rw [verifyLoop_records_out]
        exact hs
    · intro s hs
      exact forall₂_recordLE_trans hs (signStage_mono_out env args s)
  · intro s hs
    exact forall₂_recordLE_trans hs (publishStage_mono_out env args s)

end PublishPackages
